import Mathlib

/-!
Shallow embedding of `stack_pool.hpp`: a pool allocator hosting many
singly-linked stacks inside one growable array (`std::vector<node_t>`), with
nodes addressed by 1-based integer handles and `0` as the sentinel handle.
Freed nodes are threaded onto a free list reusing the `next` field.

Modelling conventions:
- `std::vector<node_t>` becomes `List (node_t T)` plus an explicit `cap`
  field modelling `std::vector::capacity()`, and a `growths` counter that
  records reallocation (storage-growth) events of `emplace_back`.
- Handles are `Nat`.  The C++ accessors `node/value/next` index `pool[x-1]`
  with no bounds checking; out-of-contract accesses (sentinel or
  out-of-range handle) are undefined behaviour in C++ and are modelled by
  `Option` reads (`none`) and no-op writes.  Every theorem below only
  exercises in-contract accesses.
- All operations are pure state transformers `stack_pool T → ...`.
-/

/-- One pool node: a stored value and the handle of the next node
(`struct node_t { T value; N next; }`). -/
structure node_t (T : Type) where
  value : T
  next : Nat
deriving Repr, DecidableEq

/-- The pool state: node storage (`std::vector<node_t> pool`), the free-list
head (`stack_type free_nodes`), plus the modelled vector capacity and a
counter of storage-growth (reallocation) events. -/
structure stack_pool (T : Type) where
  pool : List (node_t T)
  free_nodes : Nat
  cap : Nat
  growths : Nat
deriving Repr, DecidableEq

namespace stack_pool

variable {T : Type}

/-- `end()` — the sentinel handle `stack_type(0)`. (`end` is a Lean keyword.) -/
def endH : Nat := 0

/-- `stack_pool()` — default constructor: empty vector (capacity 0),
`free_nodes{end()}`. -/
def initPool (T : Type) : stack_pool T :=
  { pool := [], free_nodes := endH, cap := 0, growths := 0 }

/-- `new_stack()` — returns `end()`, the sentinel, denoting an empty stack. -/
def new_stack (_ : stack_pool T) : Nat := endH

/-- `empty(x)` — true iff `x == end()`. -/
def empty (_ : stack_pool T) (x : Nat) : Bool := x == endH

/-- `capacity()` — `pool.capacity()`. -/
def capacity (p : stack_pool T) : Nat := p.cap

/-- `reserve(n)` — `pool.reserve(n)`: grows capacity to at least `n`,
never shrinks, does not touch the elements or the free list. -/
def reserve (p : stack_pool T) (n : Nat) : stack_pool T :=
  { p with cap := max p.cap n }

/-- `node(x)` — `pool[x - 1]`, read side.  `x = 0` underflows the unsigned
index in C++ (out of bounds, UB); modelled as `none`, as is any
out-of-range handle. -/
def node? (p : stack_pool T) (x : Nat) : Option (node_t T) :=
  if x = 0 then none else p.pool[x - 1]?

/-- `value(x)` — `node(x).value`, read side. -/
def value? (p : stack_pool T) (x : Nat) : Option T :=
  (p.node? x).map node_t.value

/-- `next(x)` — `node(x).next`, read side. -/
def next? (p : stack_pool T) (x : Nat) : Option Nat :=
  (p.node? x).map node_t.next

/-- `next(x)` totalised with sentinel default; every use below is backed by
an in-range hypothesis under which it agrees with `next?`. -/
def nextD (p : stack_pool T) (x : Nat) : Nat :=
  (p.next? x).getD 0

/-- Pointwise update of one list position (identity when out of range),
used to model writing through the references returned by `value`/`next`. -/
def modifyNode (f : node_t T → node_t T) : List (node_t T) → Nat → List (node_t T)
  | [], _ => []
  | nd :: t, 0 => f nd :: t
  | nd :: t, i + 1 => nd :: modifyNode f t i

/-- `value(x) = v` — write through the reference returned by `value(x)`.
Out-of-contract handles (UB in C++) are modelled as a no-op. -/
def setValue (p : stack_pool T) (x : Nat) (v : T) : stack_pool T :=
  if x = 0 then p
  else { p with pool := modifyNode (fun nd => { nd with value := v }) p.pool (x - 1) }

/-- `next(x) = n` — write through the reference returned by `next(x)`. -/
def setNext (p : stack_pool T) (x n : Nat) : stack_pool T :=
  if x = 0 then p
  else { p with pool := modifyNode (fun nd => { nd with next := n }) p.pool (x - 1) }

/-- `pool.emplace_back(val, head)`: appends a node; when the vector is full
(`size = capacity`) this reallocates — a storage-growth event — and the
capacity at least doubles (growth policy modelled as
`max 1 (2 * cap)`). -/
def emplace_back (p : stack_pool T) (val : T) (nxt : Nat) : stack_pool T :=
  if p.pool.length < p.cap then
    { p with pool := p.pool ++ [⟨val, nxt⟩] }
  else
    { p with pool := p.pool ++ [⟨val, nxt⟩],
             cap := max 1 (2 * p.cap),
             growths := p.growths + 1 }

/-- `_push(val, head)`: if the free list is empty, append
`{val, head}` and return `pool.size()`; otherwise pop the free-list head
`tmp`, overwrite its value and next, and return `tmp`. -/
def _push (p : stack_pool T) (val : T) (head : Nat) : stack_pool T × Nat :=
  if p.free_nodes = 0 then
    let p1 := p.emplace_back val head
    (p1, p1.pool.length)
  else
    let tmp := p.free_nodes
    let fn := p.nextD tmp
    let p1 := p.setValue tmp val
    let p2 := p1.setNext tmp head
    ({ p2 with free_nodes := fn }, tmp)

/-- `push(val, head)` — public wrapper over `_push` (both the l-value and
r-value overloads delegate to `_push`). -/
def push (p : stack_pool T) (val : T) (head : Nat) : stack_pool T × Nat :=
  p._push val head

/-- `pop(x)`: sentinel is a benign no-op; otherwise save `next(x)`, splice
`x` onto the front of the free list, return the saved successor. -/
def pop (p : stack_pool T) (x : Nat) : stack_pool T × Nat :=
  if x = 0 then (p, 0)
  else
    let tmp := p.nextD x
    let p1 := p.setNext x p.free_nodes
    ({ p1 with free_nodes := x }, tmp)

/-- The loop body of `free_stack`, with explicit fuel (the C++ `while` loop
terminates exactly on finite chains; fuel makes that explicit). -/
def free_stack_aux : stack_pool T → Nat → Nat → stack_pool T × Nat
  | p, x, 0 => (p, x)
  | p, x, fuel + 1 =>
    if x = 0 then (p, x)
    else
      let r := p.pop x
      free_stack_aux r.1 r.2 fuel

/-- `free_stack(x)`: pops until the stack is empty, returns the sentinel.
A well-formed (duplicate-free, in-range) chain has length at most
`pool.length`, so fuel `pool.length + 1` never runs out on such chains. -/
def free_stack (p : stack_pool T) (x : Nat) : stack_pool T × Nat :=
  free_stack_aux p x (p.pool.length + 1)

end stack_pool

/-- The iterator `_iterator`: a pool together with a current handle.
`operator*` reads `pool->value(current)`, `operator++` sets
`current = pool->next(current)`, `operator==` compares `current` only. -/
structure _iterator (T : Type) where
  pool : stack_pool T
  current : Nat

namespace _iterator

variable {T : Type}

/-- `operator==` — compares the current handles. -/
def beq (x y : _iterator T) : Bool := x.current == y.current

/-- `begin(x)` — iterator at head `x`. -/
def iterBegin (p : stack_pool T) (x : Nat) : _iterator T := ⟨p, x⟩

/-- `end(stack_type)` — iterator whose current handle is the sentinel. -/
def iterEnd (p : stack_pool T) : _iterator T := ⟨p, stack_pool.endH⟩

/-- `operator*` — `pool->value(current)`. -/
def deref (it : _iterator T) : Option T := it.pool.value? it.current

/-- pre-increment `operator++` — `current = pool->next(current)`. -/
def step (it : _iterator T) : _iterator T :=
  { it with current := it.pool.nextD it.current }

/-- The value sequence visited by repeatedly dereferencing and stepping an
iterator until it compares equal to the end iterator (fuel-bounded). -/
def iterList : Nat → _iterator T → List T
  | 0, _ => []
  | fuel + 1, it =>
    if it.beq (iterEnd it.pool) then []
    else
      match it.deref with
      | some v => v :: iterList fuel it.step
      | none => []

end _iterator

namespace stack_pool

variable {T : Type}

/-- Full traversal of the stack rooted at `x`: iterate from `begin(x)` until
the end iterator.  Fuel `pool.length + 1` suffices for any duplicate-free
in-range chain. -/
def stackToList (p : stack_pool T) (x : Nat) : List T :=
  _iterator.iterList (p.pool.length + 1) (_iterator.iterBegin p x)

/-- Executable well-formedness check of a chain: `chainOk p x l` holds when
following `next` from handle `x` visits exactly the handles in `l` — each
non-sentinel and in range — and then reaches the sentinel. -/
def chainOk (p : stack_pool T) : Nat → List Nat → Bool
  | x, [] => x == 0
  | x, y :: l =>
    x == y && decide (0 < x) && decide (x - 1 < p.pool.length)
      && chainOk p (p.nextD x) l

/-- The values stored at a list of handles (in-range handles contribute). -/
def chainVals (p : stack_pool T) (l : List Nat) : List T :=
  l.filterMap (fun x => p.value? x)

/-- Push a whole sequence of values, each onto the head returned by the
previous push (building one stack), returning the final state and head. -/
def pushMany : stack_pool T → Nat → List T → stack_pool T × Nat
  | p, h, [] => (p, h)
  | p, h, v :: vs =>
    let r := p.push v h
    pushMany r.1 r.2 vs

/-- Run a sequence of `push` calls with arbitrary values and head arguments,
collecting the returned handles. -/
def pushSeq : stack_pool T → List (T × Nat) → stack_pool T × List Nat
  | p, [] => (p, [])
  | p, (v, h) :: ops =>
    let r := p.push v h
    let rest := pushSeq r.1 ops
    (rest.1, r.2 :: rest.2)

/-- Apply `pop` `k` times, threading the returned head. -/
def popN : stack_pool T → Nat → Nat → stack_pool T × Nat
  | p, x, 0 => (p, x)
  | p, x, k + 1 =>
    let r := p.pop x
    popN r.1 r.2 k

end stack_pool

/-! ### Frame lemmas: how each state update affects `node?` and the record fields -/

namespace stack_pool

variable {T : Type}

@[simp] lemma length_modifyNode (f : node_t T → node_t T) :
    ∀ (l : List (node_t T)) (i : Nat), (modifyNode f l i).length = l.length
  | [], _ => rfl
  | _ :: _, 0 => rfl
  | nd :: t, i + 1 => by simp [modifyNode, length_modifyNode f t i]

lemma getElem?_modifyNode (f : node_t T → node_t T) :
    ∀ (l : List (node_t T)) (i j : Nat),
      (modifyNode f l i)[j]? = if i = j then (l[j]?).map f else l[j]?
  | [], i, j => by simp [modifyNode]
  | nd :: t, 0, 0 => by simp [modifyNode]
  | nd :: t, 0, j + 1 => by simp [modifyNode]
  | nd :: t, i + 1, 0 => by simp [modifyNode]
  | nd :: t, i + 1, j + 1 => by
      simp only [modifyNode, List.getElem?_cons_succ]
      rw [getElem?_modifyNode f t i j]
      by_cases hij : i = j
      · subst hij; simp
      · rw [if_neg hij, if_neg (by omega)]

@[simp] lemma setValue_free_nodes (p : stack_pool T) (x : Nat) (v : T) :
    (p.setValue x v).free_nodes = p.free_nodes := by
  unfold setValue; split <;> rfl

@[simp] lemma setValue_cap (p : stack_pool T) (x : Nat) (v : T) :
    (p.setValue x v).cap = p.cap := by
  unfold setValue; split <;> rfl

@[simp] lemma setValue_growths (p : stack_pool T) (x : Nat) (v : T) :
    (p.setValue x v).growths = p.growths := by
  unfold setValue; split <;> rfl

@[simp] lemma setValue_length (p : stack_pool T) (x : Nat) (v : T) :
    (p.setValue x v).pool.length = p.pool.length := by
  unfold setValue; split <;> simp

@[simp] lemma setNext_free_nodes (p : stack_pool T) (x n : Nat) :
    (p.setNext x n).free_nodes = p.free_nodes := by
  unfold setNext; split <;> rfl

@[simp] lemma setNext_cap (p : stack_pool T) (x n : Nat) :
    (p.setNext x n).cap = p.cap := by
  unfold setNext; split <;> rfl

@[simp] lemma setNext_growths (p : stack_pool T) (x n : Nat) :
    (p.setNext x n).growths = p.growths := by
  unfold setNext; split <;> rfl

@[simp] lemma setNext_length (p : stack_pool T) (x n : Nat) :
    (p.setNext x n).pool.length = p.pool.length := by
  unfold setNext; split <;> simp

lemma node?_setValue (p : stack_pool T) (x : Nat) (v : T) (y : Nat) (hx : x ≠ 0) :
    (p.setValue x v).node? y =
      if y = x then (p.node? y).map (fun nd => { nd with value := v }) else p.node? y := by
  unfold setValue node?
  rw [if_neg hx]
  by_cases hy : y = 0
  · subst hy
    rw [if_pos rfl, if_neg (fun h => hx h.symm), if_pos rfl]
  · simp only [if_neg hy]
    rw [getElem?_modifyNode]
    by_cases hxy : y = x
    · subst hxy; rw [if_pos rfl, if_pos rfl]
    · rw [if_neg (by omega), if_neg hxy]

lemma node?_setNext (p : stack_pool T) (x n : Nat) (y : Nat) (hx : x ≠ 0) :
    (p.setNext x n).node? y =
      if y = x then (p.node? y).map (fun nd => { nd with next := n }) else p.node? y := by
  unfold setNext node?
  rw [if_neg hx]
  by_cases hy : y = 0
  · subst hy
    rw [if_pos rfl, if_neg (fun h => hx h.symm), if_pos rfl]
  · simp only [if_neg hy]
    rw [getElem?_modifyNode]
    by_cases hxy : y = x
    · subst hxy; rw [if_pos rfl, if_pos rfl]
    · rw [if_neg (by omega), if_neg hxy]

lemma node?_setValue_ne (p : stack_pool T) (x : Nat) (v : T) (y : Nat) (hxy : y ≠ x) :
    (p.setValue x v).node? y = p.node? y := by
  by_cases hx : x = 0
  · subst hx; unfold setValue; rw [if_pos rfl]
  · rw [node?_setValue p x v y hx, if_neg hxy]

lemma node?_setNext_ne (p : stack_pool T) (x n : Nat) (y : Nat) (hxy : y ≠ x) :
    (p.setNext x n).node? y = p.node? y := by
  by_cases hx : x = 0
  · subst hx; unfold setNext; rw [if_pos rfl]
  · rw [node?_setNext p x n y hx, if_neg hxy]

@[simp] lemma emplace_back_pool (p : stack_pool T) (v : T) (n : Nat) :
    (p.emplace_back v n).pool = p.pool ++ [⟨v, n⟩] := by
  unfold emplace_back; split <;> rfl

@[simp] lemma emplace_back_free_nodes (p : stack_pool T) (v : T) (n : Nat) :
    (p.emplace_back v n).free_nodes = p.free_nodes := by
  unfold emplace_back; split <;> rfl

@[simp] lemma emplace_back_length (p : stack_pool T) (v : T) (n : Nat) :
    (p.emplace_back v n).pool.length = p.pool.length + 1 := by
  simp

lemma node?_emplace_back (p : stack_pool T) (v : T) (n : Nat) (y : Nat) :
    (p.emplace_back v n).node? y =
      if y = p.pool.length + 1 then some ⟨v, n⟩ else p.node? y := by
  unfold node?
  simp only [emplace_back_pool]
  by_cases hy : y = 0
  · subst hy; rw [if_pos rfl, if_neg (by omega), if_pos rfl]
  · simp only [if_neg hy]
    by_cases hyl : y = p.pool.length + 1
    · subst hyl
      rw [if_pos rfl]
      have : p.pool.length + 1 - 1 = p.pool.length := by omega
      rw [this, List.getElem?_concat_length]
    · rw [if_neg hyl]
      rcases Nat.lt_or_ge (y - 1) p.pool.length with hlt | hge
      · exact List.getElem?_append_left hlt
      · rw [List.getElem?_eq_none (by simp; omega),
            List.getElem?_eq_none hge]

lemma nextD_congr {p p' : stack_pool T} {x : Nat}
    (h : p'.node? x = p.node? x) : p'.nextD x = p.nextD x := by
  simp [nextD, next?, h]

lemma nextD_eq_of_node? {p : stack_pool T} {x : Nat} {nd : node_t T}
    (h : p.node? x = some nd) : p.nextD x = nd.next := by
  simp [nextD, next?, h]

lemma value?_eq_of_node? {p : stack_pool T} {x : Nat} {nd : node_t T}
    (h : p.node? x = some nd) : p.value? x = some nd.value := by
  simp [value?, h]

lemma node?_exists {p : stack_pool T} {x : Nat}
    (hx : x ≠ 0) (hlt : x - 1 < p.pool.length) : ∃ nd, p.node? x = some nd := by
  unfold node?
  rw [if_neg hx]
  exact ⟨p.pool[x - 1], List.getElem?_eq_getElem hlt⟩

end stack_pool

/-! ### Chain lemmas: well-formed `next`-chains, their values, and iteration -/

namespace stack_pool

variable {T : Type}

lemma chainOk_nil_iff (p : stack_pool T) (x : Nat) :
    chainOk p x [] = true ↔ x = 0 := by
  simp [chainOk]

lemma chainOk_cons_iff (p : stack_pool T) (x y : Nat) (l : List Nat) :
    chainOk p x (y :: l) = true ↔
      x = y ∧ x ≠ 0 ∧ x - 1 < p.pool.length ∧ chainOk p (p.nextD x) l = true := by
  simp only [chainOk, Bool.and_eq_true, decide_eq_true_eq, beq_iff_eq]
  constructor
  · rintro ⟨⟨⟨h1, h2⟩, h3⟩, h4⟩
    exact ⟨h1, by omega, h3, h4⟩
  · rintro ⟨h1, h2, h3, h4⟩
    exact ⟨⟨⟨h1, by omega⟩, h3⟩, h4⟩

lemma chainOk_mem (p : stack_pool T) :
    ∀ (l : List Nat) (x : Nat), chainOk p x l = true →
      ∀ y ∈ l, y ≠ 0 ∧ y - 1 < p.pool.length
  | [], _, _, y, hy => by simp at hy
  | z :: l, x, hc, y, hy => by
    rw [chainOk_cons_iff] at hc
    obtain ⟨hxz, hx0, hxl, hrest⟩ := hc
    rcases List.mem_cons.mp hy with hyz | hyl
    · subst hyz; subst hxz; exact ⟨hx0, hxl⟩
    · exact chainOk_mem p l (p.nextD x) hrest y hyl

lemma chainOk_congr {p p' : stack_pool T} (hlen : p.pool.length ≤ p'.pool.length) :
    ∀ (l : List Nat) (x : Nat), (∀ y ∈ l, p'.node? y = p.node? y) →
      chainOk p x l = true → chainOk p' x l = true
  | [], x, _, hc => by
    rw [chainOk_nil_iff] at hc ⊢; exact hc
  | z :: l, x, heq, hc => by
    rw [chainOk_cons_iff] at hc ⊢
    obtain ⟨hxz, hx0, hxl, hrest⟩ := hc
    have hx : p'.node? x = p.node? x := heq x (by rw [hxz]; exact List.mem_cons_self z l)
    refine ⟨hxz, hx0, by omega, ?_⟩
    rw [nextD_congr hx]
    exact chainOk_congr hlen l (p.nextD x)
      (fun y hy => heq y (List.mem_cons_of_mem z hy)) hrest

lemma chainVals_nil (p : stack_pool T) : chainVals p [] = [] := rfl

lemma chainVals_cons (p : stack_pool T) (y : Nat) (l : List Nat) {nd : node_t T}
    (h : p.node? y = some nd) :
    chainVals p (y :: l) = nd.value :: chainVals p l := by
  simp [chainVals, List.filterMap_cons, value?_eq_of_node? h]

lemma chainVals_congr (p p' : stack_pool T) :
    ∀ (l : List Nat), (∀ y ∈ l, p'.node? y = p.node? y) →
      chainVals p' l = chainVals p l
  | [], _ => rfl
  | z :: l, heq => by
    have hz : p'.node? z = p.node? z := heq z (List.mem_cons_self z l)
    have htail := chainVals_congr p p' l
      (fun y hy => heq y (List.mem_cons_of_mem z hy))
    simp only [chainVals, value?, List.filterMap_cons, hz] at htail ⊢
    rw [htail]

lemma chainOk_length_le {p : stack_pool T} {l : List Nat} {x : Nat}
    (hnd : l.Nodup) (hc : chainOk p x l = true) : l.length ≤ p.pool.length := by
  have hsub : l.toFinset ⊆ Finset.Icc 1 p.pool.length := by
    intro y hy
    have hmem := chainOk_mem p l x hc y (List.mem_toFinset.mp hy)
    rw [Finset.mem_Icc]
    omega
  calc l.length = l.toFinset.card := (List.toFinset_card_of_nodup hnd).symm
    _ ≤ (Finset.Icc 1 p.pool.length).card := Finset.card_le_card hsub
    _ = p.pool.length := by rw [Nat.card_Icc]; omega

lemma iterList_chain {p : stack_pool T} :
    ∀ (l : List Nat) (x fuel : Nat), chainOk p x l = true → l.length ≤ fuel →
      _iterator.iterList fuel (_iterator.iterBegin p x) = chainVals p l
  | [], x, fuel, hc, _ => by
    rw [chainOk_nil_iff] at hc
    subst hc
    cases fuel <;> simp [_iterator.iterList, _iterator.iterBegin, _iterator.iterEnd,
      _iterator.beq, endH, chainVals]
  | z :: l, x, fuel, hc, hfuel => by
    rw [chainOk_cons_iff] at hc
    obtain ⟨hxz, hx0, hxl, hrest⟩ := hc
    obtain ⟨nd, hnd⟩ := node?_exists hx0 hxl
    obtain ⟨f, rfl⟩ : ∃ f, fuel = f + 1 := by
      cases fuel
      · simp at hfuel
      · exact ⟨_, rfl⟩
    rw [_iterator.iterList]
    have hbeq : (_iterator.iterBegin p x).beq
        (_iterator.iterEnd (_iterator.iterBegin p x).pool) = false := by
      simp [_iterator.beq, _iterator.iterBegin, _iterator.iterEnd, endH, hx0]
    rw [if_neg (by simp [hbeq])]
    have hderef : (_iterator.iterBegin p x).deref = some nd.value := by
      simp [_iterator.deref, _iterator.iterBegin, value?_eq_of_node? hnd]
    rw [hderef]
    have hstep : (_iterator.iterBegin p x).step = _iterator.iterBegin p (p.nextD x) := rfl
    rw [hstep, iterList_chain l (p.nextD x) f hrest (by simpa using hfuel)]
    subst hxz
    exact (chainVals_cons p x l hnd).symm

lemma stackToList_chain {p : stack_pool T} {l : List Nat} {x : Nat}
    (hc : chainOk p x l = true) (hnd : l.Nodup) :
    p.stackToList x = chainVals p l :=
  iterList_chain l x (p.pool.length + 1) hc
    (Nat.le_succ_of_le (chainOk_length_le hnd hc))

end stack_pool

/-! ### Branch characterisations of `_push` and `pop` -/

namespace stack_pool

variable {T : Type}

lemma _push_free {p : stack_pool T} (v : T) (h : Nat) (h0 : p.free_nodes = 0) :
    p._push v h = (p.emplace_back v h, p.pool.length + 1) := by
  unfold _push
  rw [if_pos h0]
  simp

lemma _push_reuse {p : stack_pool T} (v : T) (h : Nat) (h0 : p.free_nodes ≠ 0) :
    p._push v h =
      ({ (p.setValue p.free_nodes v).setNext p.free_nodes h
          with free_nodes := p.nextD p.free_nodes }, p.free_nodes) := by
  unfold _push
  rw [if_neg h0]

lemma push_ret_ne_zero (p : stack_pool T) (v : T) (h : Nat) :
    (p._push v h).2 ≠ 0 := by
  by_cases h0 : p.free_nodes = 0
  · rw [_push_free v h h0]; omega
  · rw [_push_reuse v h h0]; exact h0

lemma node?_push_self {p : stack_pool T} (v : T) (h : Nat)
    (hf : p.free_nodes ≠ 0 → p.free_nodes - 1 < p.pool.length) :
    (p._push v h).1.node? (p._push v h).2 = some ⟨v, h⟩ := by
  by_cases h0 : p.free_nodes = 0
  · rw [_push_free v h h0]
    simp [node?_emplace_back]
  · rw [_push_reuse v h h0]
    obtain ⟨nd, hnd⟩ := node?_exists h0 (hf h0)
    show ((p.setValue p.free_nodes v).setNext p.free_nodes h).node? p.free_nodes = _
    rw [node?_setNext _ _ _ _ h0, if_pos rfl,
        node?_setValue _ _ _ _ h0, if_pos rfl, hnd]
    rfl

lemma node?_push_other {p : stack_pool T} (v : T) (h : Nat) {y : Nat}
    (hy : y ≠ (p._push v h).2) :
    (p._push v h).1.node? y = p.node? y := by
  by_cases h0 : p.free_nodes = 0
  · rw [_push_free v h h0] at hy ⊢
    simp only [node?_emplace_back]
    rw [if_neg hy]
  · rw [_push_reuse v h h0] at hy ⊢
    show ((p.setValue p.free_nodes v).setNext p.free_nodes h).node? y = _
    rw [node?_setNext_ne _ _ _ _ hy, node?_setValue_ne _ _ _ _ hy]

lemma push_length_free {p : stack_pool T} (v : T) (h : Nat) (h0 : p.free_nodes = 0) :
    (p._push v h).1.pool.length = p.pool.length + 1 := by
  rw [_push_free v h h0]; simp

lemma push_length_reuse {p : stack_pool T} (v : T) (h : Nat) (h0 : p.free_nodes ≠ 0) :
    (p._push v h).1.pool.length = p.pool.length := by
  rw [_push_reuse v h h0]; simp

lemma push_length_le (p : stack_pool T) (v : T) (h : Nat) :
    p.pool.length ≤ (p._push v h).1.pool.length := by
  by_cases h0 : p.free_nodes = 0
  · rw [push_length_free v h h0]; omega
  · rw [push_length_reuse v h h0]

lemma push_free_nodes_free {p : stack_pool T} (v : T) (h : Nat) (h0 : p.free_nodes = 0) :
    (p._push v h).1.free_nodes = 0 := by
  rw [_push_free v h h0]
  simp [h0]

lemma push_free_nodes_reuse {p : stack_pool T} (v : T) (h : Nat) (h0 : p.free_nodes ≠ 0) :
    (p._push v h).1.free_nodes = p.nextD p.free_nodes := by
  rw [_push_reuse v h h0]

lemma push_cap_reuse {p : stack_pool T} (v : T) (h : Nat) (h0 : p.free_nodes ≠ 0) :
    (p._push v h).1.cap = p.cap := by
  rw [_push_reuse v h h0]; simp

lemma push_growths_reuse {p : stack_pool T} (v : T) (h : Nat) (h0 : p.free_nodes ≠ 0) :
    (p._push v h).1.growths = p.growths := by
  rw [_push_reuse v h h0]; simp

lemma pop_zero (p : stack_pool T) : p.pop 0 = (p, 0) := rfl

lemma pop_spec {p : stack_pool T} (x : Nat) (hx : x ≠ 0) :
    p.pop x = ({ p.setNext x p.free_nodes with free_nodes := x }, p.nextD x) := by
  unfold pop
  rw [if_neg hx]

end stack_pool

/-! ### Master lemmas: `free_stack`, recycling pushes, growth accounting -/

namespace stack_pool

variable {T : Type}

@[simp] lemma node?_set_free_nodes (p : stack_pool T) (n y : Nat) :
    ({ p with free_nodes := n } : stack_pool T).node? y = p.node? y := rfl

@[simp] lemma length_set_free_nodes (p : stack_pool T) (n : Nat) :
    ({ p with free_nodes := n } : stack_pool T).pool.length = p.pool.length := rfl

@[simp] lemma nextD_set_free_nodes (p : stack_pool T) (n y : Nat) :
    ({ p with free_nodes := n } : stack_pool T).nextD y = p.nextD y := rfl

lemma node?_range {p : stack_pool T} {x : Nat} {nd : node_t T}
    (h : p.node? x = some nd) : x ≠ 0 ∧ x - 1 < p.pool.length := by
  unfold node? at h
  by_cases hx : x = 0
  · rw [if_pos hx] at h; cases h
  · rw [if_neg hx] at h
    refine ⟨hx, ?_⟩
    by_contra hge
    rw [List.getElem?_eq_none (by omega)] at h
    cases h

lemma free_stack_aux_spec :
    ∀ (l : List Nat) (p : stack_pool T) (x : Nat) (fl : List Nat) (fuel : Nat),
      chainOk p x l = true → chainOk p p.free_nodes fl = true →
      (l ++ fl).Nodup → l.length ≤ fuel →
      (free_stack_aux p x fuel).2 = 0 ∧
      (free_stack_aux p x fuel).1.pool.length = p.pool.length ∧
      (free_stack_aux p x fuel).1.cap = p.cap ∧
      (free_stack_aux p x fuel).1.growths = p.growths ∧
      chainOk (free_stack_aux p x fuel).1
        (free_stack_aux p x fuel).1.free_nodes (l.reverse ++ fl) = true
  | [], p, x, fl, fuel, hc, hf, _, _ => by
    rw [chainOk_nil_iff] at hc
    subst hc
    cases fuel with
    | zero => exact ⟨rfl, rfl, rfl, rfl, by simpa using hf⟩
    | succ f => exact ⟨by simp [free_stack_aux], by simp [free_stack_aux],
        by simp [free_stack_aux], by simp [free_stack_aux],
        by simpa [free_stack_aux] using hf⟩
  | z :: l, p, x, fl, fuel, hc, hf, hnd, hfuel => by
    rw [chainOk_cons_iff] at hc
    obtain ⟨hxz, hx0, hxl, hrest⟩ := hc
    subst hxz
    obtain ⟨f, rfl⟩ : ∃ f, fuel = f + 1 := by
      cases fuel
      · simp at hfuel
      · exact ⟨_, rfl⟩
    rw [List.cons_append, List.nodup_cons] at hnd
    obtain ⟨hxmem, hnd'⟩ := hnd
    obtain ⟨nd, hndx⟩ := node?_exists hx0 hxl
    have hstep : free_stack_aux p x (f + 1) =
        free_stack_aux (p.pop x).1 (p.pop x).2 f := by
      simp [free_stack_aux, hx0]
    have hpop := pop_spec (p := p) x hx0
    -- the state after one pop
    have hq2 : (p.pop x).2 = p.nextD x := by rw [hpop]
    have hqnode : ∀ y, y ≠ x → (p.pop x).1.node? y = p.node? y := by
      intro y hy
      rw [hpop]
      simp only [node?_set_free_nodes]
      exact node?_setNext_ne p x p.free_nodes y hy
    have hqlen : (p.pop x).1.pool.length = p.pool.length := by
      rw [hpop]; simp
    have hqcap : (p.pop x).1.cap = p.cap := by rw [hpop]; simp
    have hqgrowths : (p.pop x).1.growths = p.growths := by rw [hpop]; simp
    have hqfree : (p.pop x).1.free_nodes = x := by rw [hpop]
    -- node x in the popped state: its next now points at the old free list
    have hqnodex : (p.pop x).1.node? x = some { nd with next := p.free_nodes } := by
      rw [hpop]
      simp only [node?_set_free_nodes]
      rw [node?_setNext p x p.free_nodes x hx0, if_pos rfl, hndx]
      rfl
    -- the remaining stack chain survives the pop
    have hchain : chainOk (p.pop x).1 (p.pop x).2 l = true := by
      rw [hq2]
      exact chainOk_congr (by omega) l (p.nextD x)
        (fun y hy => hqnode y
          (fun hyx => hxmem (List.mem_append.mpr (Or.inl (hyx ▸ hy))))) hrest
    -- the free list grows by x at its head
    have hfree : chainOk (p.pop x).1 (p.pop x).1.free_nodes (x :: fl) = true := by
      rw [hqfree, chainOk_cons_iff]
      refine ⟨rfl, hx0, by omega, ?_⟩
      rw [nextD_eq_of_node? hqnodex]
      exact chainOk_congr (by omega) fl p.free_nodes
        (fun y hy => hqnode y
          (fun hyx => hxmem (List.mem_append.mpr (Or.inr (hyx ▸ hy))))) hf
    have hnd2 : (l ++ x :: fl).Nodup :=
      List.nodup_middle.mpr (List.nodup_cons.mpr ⟨hxmem, hnd'⟩)
    have ih := free_stack_aux_spec l (p.pop x).1 (p.pop x).2 (x :: fl) f
      hchain hfree hnd2 (by simpa using hfuel)
    rw [hstep]
    refine ⟨ih.1, by rw [ih.2.1, hqlen], by rw [ih.2.2.1, hqcap],
      by rw [ih.2.2.2.1, hqgrowths], ?_⟩
    have := ih.2.2.2.2
    rw [List.reverse_cons, List.append_assoc]
    exact this

lemma free_stack_aux_eq_popN :
    ∀ (l : List Nat) (p : stack_pool T) (x fuel : Nat),
      chainOk p x l = true → l.Nodup → l.length ≤ fuel →
      free_stack_aux p x fuel = popN p x l.length
  | [], p, x, fuel, hc, _, _ => by
    rw [chainOk_nil_iff] at hc
    subst hc
    cases fuel <;> simp [free_stack_aux, popN]
  | z :: l, p, x, fuel, hc, hnd, hfuel => by
    rw [chainOk_cons_iff] at hc
    obtain ⟨hxz, hx0, hxl, hrest⟩ := hc
    subst hxz
    obtain ⟨f, rfl⟩ : ∃ f, fuel = f + 1 := by
      cases fuel
      · simp at hfuel
      · exact ⟨_, rfl⟩
    rw [List.nodup_cons] at hnd
    obtain ⟨hxmem, hnd'⟩ := hnd
    have hstep : free_stack_aux p x (f + 1) =
        free_stack_aux (p.pop x).1 (p.pop x).2 f := by
      simp [free_stack_aux, hx0]
    have hstep2 : popN p x (l.length + 1) = popN (p.pop x).1 (p.pop x).2 l.length := by
      simp [popN]
    have hqnode : ∀ y, y ≠ x → (p.pop x).1.node? y = p.node? y := by
      intro y hy
      rw [pop_spec x hx0]
      simp only [node?_set_free_nodes]
      exact node?_setNext_ne p x p.free_nodes y hy
    have hqlen : (p.pop x).1.pool.length = p.pool.length := by
      rw [pop_spec x hx0]; simp
    have hchain : chainOk (p.pop x).1 (p.pop x).2 l = true := by
      have hq2 : (p.pop x).2 = p.nextD x := by rw [pop_spec x hx0]
      rw [hq2]
      exact chainOk_congr (by omega) l (p.nextD x)
        (fun y hy => hqnode y (fun hyx => hxmem (hyx ▸ hy))) hrest
    rw [List.length_cons, hstep, hstep2]
    exact free_stack_aux_eq_popN l (p.pop x).1 (p.pop x).2 f hchain hnd'
      (by simpa using hfuel)

lemma pushSeq_reuse :
    ∀ (ops : List (T × Nat)) (p : stack_pool T) (fl : List Nat),
      chainOk p p.free_nodes fl = true → fl.Nodup → ops.length ≤ fl.length →
      (pushSeq p ops).2 = fl.take ops.length ∧
      (pushSeq p ops).1.pool.length = p.pool.length ∧
      (pushSeq p ops).1.cap = p.cap ∧
      (pushSeq p ops).1.growths = p.growths
  | [], p, fl, _, _, _ => by simp [pushSeq]
  | (v, h) :: ops, p, fl, hf, hnd, hlen => by
    obtain ⟨z, fl', rfl⟩ : ∃ z fl', fl = z :: fl' := by
      cases fl
      · simp at hlen
      · exact ⟨_, _, rfl⟩
    rw [chainOk_cons_iff] at hf
    obtain ⟨hfz, hf0, hfl, hrest⟩ := hf
    rw [List.nodup_cons] at hnd
    obtain ⟨hzmem, hnd'⟩ := hnd
    have hstep : pushSeq p ((v, h) :: ops) =
        ((pushSeq (p._push v h).1 ops).1,
          (p._push v h).2 :: (pushSeq (p._push v h).1 ops).2) := by
      simp [pushSeq, push]
    have hret : (p._push v h).2 = p.free_nodes := by
      rw [_push_reuse v h hf0]
    have hqfree : (p._push v h).1.free_nodes = p.nextD p.free_nodes :=
      push_free_nodes_reuse v h hf0
    have hqlen : (p._push v h).1.pool.length = p.pool.length :=
      push_length_reuse v h hf0
    have hqchain : chainOk (p._push v h).1 (p._push v h).1.free_nodes fl' = true := by
      rw [hqfree]
      exact chainOk_congr (by omega) fl' (p.nextD p.free_nodes)
        (fun y hy => node?_push_other v h
          (by rw [hret, hfz]; exact fun hyz => hzmem (hyz ▸ hy))) hrest
    have ih := pushSeq_reuse ops (p._push v h).1 fl' hqchain hnd' (by simpa using hlen)
    rw [hstep]
    refine ⟨?_, by rw [ih.2.1, hqlen], by rw [ih.2.2.1, push_cap_reuse v h hf0],
      by rw [ih.2.2.2, push_growths_reuse v h hf0]⟩
    simp only [List.length_cons, List.take_succ_cons]
    rw [ih.1, hret, hfz]

lemma pushSeq_no_growth :
    ∀ (ops : List (T × Nat)) (p : stack_pool T),
      p.pool.length + ops.length ≤ p.cap →
      (pushSeq p ops).1.growths = p.growths ∧
      (pushSeq p ops).1.cap = p.cap ∧
      (pushSeq p ops).1.pool.length ≤ p.pool.length + ops.length
  | [], p, _ => by simp [pushSeq]
  | (v, h) :: ops, p, hle => by
    have hstep : (pushSeq p ((v, h) :: ops)).1 = (pushSeq (p._push v h).1 ops).1 := by
      simp [pushSeq, push]
    rw [hstep]
    by_cases h0 : p.free_nodes = 0
    · have hlt : p.pool.length < p.cap := by
        simp only [List.length_cons] at hle
        omega
      have hemp : p.emplace_back v h = { p with pool := p.pool ++ [⟨v, h⟩] } := by
        unfold emplace_back
        rw [if_pos hlt]
      have hq1 : (p._push v h).1.pool.length = p.pool.length + 1 :=
        push_length_free v h h0
      have hq2 : (p._push v h).1.cap = p.cap := by
        rw [_push_free v h h0, hemp]
      have hq3 : (p._push v h).1.growths = p.growths := by
        rw [_push_free v h h0, hemp]
      have ih := pushSeq_no_growth ops (p._push v h).1 (by
        rw [hq1, hq2]
        simp only [List.length_cons] at hle
        omega)
      simp only [List.length_cons]
      refine ⟨by rw [ih.1, hq3], by rw [ih.2.1, hq2], ?_⟩
      have := ih.2.2
      rw [hq1] at this
      omega
    · have hq1 : (p._push v h).1.pool.length = p.pool.length := push_length_reuse v h h0
      have hq2 : (p._push v h).1.cap = p.cap := push_cap_reuse v h h0
      have hq3 : (p._push v h).1.growths = p.growths := push_growths_reuse v h h0
      have ih := pushSeq_no_growth ops (p._push v h).1 (by
        rw [hq1, hq2]
        simp only [List.length_cons] at hle
        omega)
      simp only [List.length_cons]
      refine ⟨by rw [ih.1, hq3], by rw [ih.2.1, hq2], by rw [hq1] at ih; omega⟩

end stack_pool

namespace stack_pool

variable {T : Type}

lemma pushMany_chain :
    ∀ (vs : List T) (p : stack_pool T) (h : Nat) (sh fl : List Nat),
      chainOk p h sh = true → chainOk p p.free_nodes fl = true →
      (sh ++ fl).Nodup →
      ∃ sh' fl',
        chainOk (pushMany p h vs).1 (pushMany p h vs).2 sh' = true ∧
        chainOk (pushMany p h vs).1 (pushMany p h vs).1.free_nodes fl' = true ∧
        (sh' ++ fl').Nodup ∧
        chainVals (pushMany p h vs).1 sh' = vs.reverse ++ chainVals p sh
  | [], p, h, sh, fl, hs, hf, hnd => by
    exact ⟨sh, fl, by simpa [pushMany] using hs, by simpa [pushMany] using hf,
      hnd, by simp [pushMany]⟩
  | v :: vs, p, h, sh, fl, hs, hf, hnd => by
    have hstep : pushMany p h (v :: vs) = pushMany (p._push v h).1 (p._push v h).2 vs := by
      simp [pushMany, push]
    rw [hstep]
    -- the in-range hypothesis on the free-list head, from its chain
    have hfr : p.free_nodes ≠ 0 → p.free_nodes - 1 < p.pool.length := by
      intro h0
      cases fl with
      | nil => rw [chainOk_nil_iff] at hf; exact absurd hf h0
      | cons z fl' => exact ((chainOk_cons_iff _ _ _ _).mp hf).2.2.1
    have hself := node?_push_self v h hfr
    have hret0 := push_ret_ne_zero p v h
    have hretrange := (node?_range hself).2
    have hlenle := push_length_le p v h
    -- the handle returned by push is fresh with respect to the old stack chain
    have hretsh : (p._push v h).2 ∉ sh := by
      intro hmem
      by_cases h0 : p.free_nodes = 0
      · have hr : (p._push v h).2 = p.pool.length + 1 := by rw [_push_free v h h0]
        have := (chainOk_mem p sh h hs _ hmem).2
        omega
      · have hr : (p._push v h).2 = p.free_nodes := by rw [_push_reuse v h h0]
        rw [List.nodup_append] at hnd
        cases fl with
        | nil => rw [chainOk_nil_iff] at hf; exact h0 hf
        | cons z fl' =>
          have hz : p.free_nodes = z := ((chainOk_cons_iff _ _ _ _).mp hf).1
          exact hnd.2.2 hmem (by rw [hr, hz]; exact List.mem_cons_self _ _)
    -- the old stack chain survives the push
    have hshchain : chainOk (p._push v h).1 h sh = true :=
      chainOk_congr hlenle sh h
        (fun y hy => node?_push_other v h (fun hyx => hretsh (hyx ▸ hy))) hs
    -- the new stack chain: returned handle consed onto the old one
    have hnewchain : chainOk (p._push v h).1 (p._push v h).2
        ((p._push v h).2 :: sh) = true := by
      rw [chainOk_cons_iff]
      exact ⟨rfl, hret0, hretrange, by rw [nextD_eq_of_node? hself]; exact hshchain⟩
    have hnewvals : chainVals (p._push v h).1 ((p._push v h).2 :: sh) =
        v :: chainVals p sh := by
      rw [chainVals_cons _ _ _ hself]
      congr 1
      exact chainVals_congr p (p._push v h).1 sh
        (fun y hy => node?_push_other v h (fun hyx => hretsh (hyx ▸ hy)))
    -- per-branch free list for the recursive call
    by_cases h0 : p.free_nodes = 0
    · -- growth branch: the free list stays empty
      have hqfree : chainOk (p._push v h).1 (p._push v h).1.free_nodes [] = true := by
        rw [chainOk_nil_iff]
        exact push_free_nodes_free v h h0
      have hnd2 : (((p._push v h).2 :: sh) ++ ([] : List Nat)).Nodup := by
        rw [List.append_nil, List.nodup_cons]
        rw [List.nodup_append] at hnd
        exact ⟨hretsh, hnd.1⟩
      obtain ⟨sh', fl', ih1, ih2, ih3, ih4⟩ :=
        pushMany_chain vs (p._push v h).1 (p._push v h).2
          ((p._push v h).2 :: sh) [] hnewchain hqfree hnd2
      refine ⟨sh', fl', ih1, ih2, ih3, ?_⟩
      rw [ih4, hnewvals, List.reverse_cons, List.append_assoc]
      rfl
    · -- reuse branch: the free list loses its head
      obtain ⟨z, fl2, rfl⟩ : ∃ z fl2, fl = z :: fl2 := by
        cases fl with
        | nil => rw [chainOk_nil_iff] at hf; exact absurd hf h0
        | cons z fl2 => exact ⟨z, fl2, rfl⟩
      obtain ⟨hfz, _, _, hrest⟩ := (chainOk_cons_iff _ _ _ _).mp hf
      have hr : (p._push v h).2 = p.free_nodes := by rw [_push_reuse v h h0]
      have hmid : (z :: (sh ++ fl2)).Nodup := List.nodup_middle.mp hnd
      rw [List.nodup_cons, List.mem_append] at hmid
      obtain ⟨hzmem, hmid'⟩ := hmid
      have hqfree : chainOk (p._push v h).1 (p._push v h).1.free_nodes fl2 = true := by
        rw [push_free_nodes_reuse v h h0]
        exact chainOk_congr (by omega) fl2 (p.nextD p.free_nodes)
          (fun y hy => node?_push_other v h
            (by rw [hr, hfz]; exact fun hyz => hzmem (Or.inr (hyz ▸ hy)))) hrest
      have hnd2 : (((p._push v h).2 :: sh) ++ fl2).Nodup := by
        rw [List.cons_append, List.nodup_cons, List.mem_append, hr, hfz]
        exact ⟨fun hmem => hmem.elim (fun hin => hzmem (Or.inl hin))
          (fun hin => hzmem (Or.inr hin)), hmid'⟩
      obtain ⟨sh', fl', ih1, ih2, ih3, ih4⟩ :=
        pushMany_chain vs (p._push v h).1 (p._push v h).2
          ((p._push v h).2 :: sh) fl2 hnewchain hqfree hnd2
      refine ⟨sh', fl', ih1, ih2, ih3, ?_⟩
      rw [ih4, hnewvals, List.reverse_cons, List.append_assoc]
      rfl

end stack_pool

namespace stack_pool

variable {T : Type}

lemma free_stack_aux_basic :
    ∀ (l : List Nat) (p : stack_pool T) (x fuel : Nat),
      chainOk p x l = true → l.Nodup → l.length ≤ fuel →
      (free_stack_aux p x fuel).2 = 0 ∧
      (free_stack_aux p x fuel).1.pool.length = p.pool.length ∧
      (free_stack_aux p x fuel).1.cap = p.cap ∧
      (free_stack_aux p x fuel).1.growths = p.growths
  | [], p, x, fuel, hc, _, _ => by
    rw [chainOk_nil_iff] at hc
    subst hc
    cases fuel <;> exact ⟨by simp [free_stack_aux], by simp [free_stack_aux],
      by simp [free_stack_aux], by simp [free_stack_aux]⟩
  | z :: l, p, x, fuel, hc, hnd, hfuel => by
    rw [chainOk_cons_iff] at hc
    obtain ⟨hxz, hx0, hxl, hrest⟩ := hc
    subst hxz
    obtain ⟨f, rfl⟩ : ∃ f, fuel = f + 1 := by
      cases fuel
      · simp at hfuel
      · exact ⟨_, rfl⟩
    rw [List.nodup_cons] at hnd
    obtain ⟨hxmem, hnd'⟩ := hnd
    have hstep : free_stack_aux p x (f + 1) =
        free_stack_aux (p.pop x).1 (p.pop x).2 f := by
      simp [free_stack_aux, hx0]
    have hqnode : ∀ y, y ≠ x → (p.pop x).1.node? y = p.node? y := by
      intro y hy
      rw [pop_spec x hx0]
      simp only [node?_set_free_nodes]
      exact node?_setNext_ne p x p.free_nodes y hy
    have hqlen : (p.pop x).1.pool.length = p.pool.length := by
      rw [pop_spec x hx0]; simp
    have hqcap : (p.pop x).1.cap = p.cap := by rw [pop_spec x hx0]; simp
    have hqgrowths : (p.pop x).1.growths = p.growths := by rw [pop_spec x hx0]; simp
    have hchain : chainOk (p.pop x).1 (p.pop x).2 l = true := by
      have hq2 : (p.pop x).2 = p.nextD x := by rw [pop_spec x hx0]
      rw [hq2]
      exact chainOk_congr (by omega) l (p.nextD x)
        (fun y hy => hqnode y (fun hyx => hxmem (hyx ▸ hy))) hrest
    have ih := free_stack_aux_basic l (p.pop x).1 (p.pop x).2 f hchain hnd'
      (by simpa using hfuel)
    rw [hstep]
    exact ⟨ih.1, by rw [ih.2.1, hqlen], by rw [ih.2.2.1, hqcap],
      by rw [ih.2.2.2, hqgrowths]⟩

lemma node?_congr_pool {p p' : stack_pool T} (hpool : p'.pool = p.pool) (y : Nat) :
    p'.node? y = p.node? y := by
  unfold node?
  rw [hpool]

lemma iterList_congr_pool (p p' : stack_pool T) (hpool : p'.pool = p.pool) :
    ∀ (fuel x : Nat),
      _iterator.iterList fuel (_iterator.iterBegin p' x) =
        _iterator.iterList fuel (_iterator.iterBegin p x)
  | 0, _ => rfl
  | fuel + 1, x => by
    have hval : p'.value? x = p.value? x := by
      unfold value?
      rw [node?_congr_pool hpool]
    have hnxt : p'.nextD x = p.nextD x := nextD_congr (node?_congr_pool hpool x)
    simp only [_iterator.iterList, _iterator.beq, _iterator.iterBegin,
      _iterator.iterEnd, _iterator.deref, _iterator.step, hval, hnxt]
    by_cases hx : (x == stack_pool.endH) = true
    · rw [if_pos hx, if_pos hx]
    · rw [if_neg hx, if_neg hx]
      cases p.value? x with
      | none => rfl
      | some v =>
        have := iterList_congr_pool p p' hpool fuel (p.nextD x)
        simp only [_iterator.iterBegin] at this
        rw [this]

end stack_pool

/-! ### Claim theorems -/

namespace stack_pool

variable {T : Type}

/-- C1: for every sequence of values `v1, ..., vk` pushed in that order onto a
stack obtained from `new_stack()` (an initially empty stack, over a pool whose
free list is a well-formed duplicate-free chain), iterating from the head
handle returned by the last push visits the values in reverse push order
`vk, ..., v1` and then reaches the end iterator (LIFO order). -/
theorem push_iterate_lifo (vs : List T) (p : stack_pool T) (fl : List Nat)
    (hfl : chainOk p p.free_nodes fl = true) (hnd : fl.Nodup) :
    (pushMany p p.new_stack vs).1.stackToList (pushMany p p.new_stack vs).2 =
      vs.reverse := by
  have hs : chainOk p p.new_stack [] = true := by
    rw [chainOk_nil_iff]; rfl
  obtain ⟨sh', fl', ih1, ih2, ih3, ih4⟩ :=
    pushMany_chain vs p p.new_stack [] fl hs hfl (by simpa using hnd)
  rw [List.nodup_append] at ih3
  rw [stackToList_chain ih1 ih3.1, ih4]
  simp [chainVals]

/-- C2: `pop` applied to the handle returned by `push(v, h)` returns exactly
`h`, and the element removed by that pop is the value `v` most recently
pushed (the removed node holds `v`, both before and after it becomes the
free-list head). -/
theorem push_pop_inverse (p : stack_pool T) (v : T) (h : Nat)
    (hf : p.free_nodes ≠ 0 → p.free_nodes - 1 < p.pool.length) :
    ((p._push v h).1.pop (p._push v h).2).2 = h ∧
    (p._push v h).1.value? (p._push v h).2 = some v ∧
    ((p._push v h).1.pop (p._push v h).2).1.free_nodes = (p._push v h).2 ∧
    ((p._push v h).1.pop (p._push v h).2).1.value? (p._push v h).2 = some v := by
  have hself := node?_push_self v h hf
  have hret0 := push_ret_ne_zero p v h
  have hpop := pop_spec (p := (p._push v h).1) (p._push v h).2 hret0
  refine ⟨?_, value?_eq_of_node? hself, ?_, ?_⟩
  · rw [hpop]
    exact nextD_eq_of_node? hself
  · rw [hpop]
  · rw [hpop]
    have hn : ((p._push v h).1.setNext (p._push v h).2
        (p._push v h).1.free_nodes).node? (p._push v h).2 =
        some ⟨v, (p._push v h).1.free_nodes⟩ := by
      rw [node?_setNext _ _ _ _ hret0, if_pos rfl, hself]
      rfl
    show (({ (p._push v h).1.setNext (p._push v h).2 (p._push v h).1.free_nodes
        with free_nodes := (p._push v h).2 } : stack_pool T).node?
        (p._push v h).2).map node_t.value = some v
    rw [node?_set_free_nodes, hn]
    rfl

/-- C3: `new_stack()` is empty, and `pop` (or `free_stack`) on the sentinel
handle it returns is a defined benign no-op: it returns the sentinel and
leaves the entire pool state (node storage and free list) unmodified.  All
operations of the model are total functions: no error value exists. -/
theorem pop_sentinel_noop (p : stack_pool T) :
    p.empty p.new_stack = true ∧
    p.pop p.new_stack = (p, p.new_stack) ∧
    p.free_stack p.new_stack = (p, p.new_stack) := by
  refine ⟨rfl, rfl, ?_⟩
  show free_stack_aux p 0 (p.pool.length + 1) = (p, 0)
  simp [free_stack_aux]

/-- C4: for every well-formed stack, `free_stack` returns the sentinel and the
resulting stack is empty; the pool's capacity and node count are unchanged by
the call, and the result and final pool state equal those of applying `pop`
repeatedly, k times for a stack of length k. -/
theorem free_stack_empties (p : stack_pool T) (h : Nat) (l : List Nat)
    (hc : chainOk p h l = true) (hnd : l.Nodup) :
    (p.free_stack h).2 = 0 ∧
    (p.free_stack h).1.empty (p.free_stack h).2 = true ∧
    (p.free_stack h).1.capacity = p.capacity ∧
    (p.free_stack h).1.pool.length = p.pool.length ∧
    p.free_stack h = popN p h l.length := by
  have hle : l.length ≤ p.pool.length + 1 :=
    Nat.le_succ_of_le (chainOk_length_le hnd hc)
  have hb := free_stack_aux_basic l p h (p.pool.length + 1) hc hnd hle
  have h2 : (p.free_stack h).2 = 0 := hb.1
  refine ⟨h2, ?_, hb.2.2.1, hb.2.1,
    free_stack_aux_eq_popN l p h (p.pool.length + 1) hc hnd hle⟩
  show ((p.free_stack h).2 == endH) = true
  rw [h2]
  rfl

/-- C5: after `free_stack` on a stack of length k, the next k pushes — with
any values and head arguments — reuse exactly the k freed node slots (most
recently freed first), with no storage growth event and no increase of the
node count or capacity. -/
theorem recycle_freed_slots (p : stack_pool T) (h : Nat) (l fl : List Nat)
    (ops : List (T × Nat))
    (hc : chainOk p h l = true) (hf : chainOk p p.free_nodes fl = true)
    (hnd : (l ++ fl).Nodup) (hlen : ops.length = l.length) :
    (pushSeq (p.free_stack h).1 ops).2 = l.reverse ∧
    (pushSeq (p.free_stack h).1 ops).1.pool.length = p.pool.length ∧
    (pushSeq (p.free_stack h).1 ops).1.growths = p.growths ∧
    (pushSeq (p.free_stack h).1 ops).1.capacity = p.capacity := by
  have hndl : l.Nodup := (List.nodup_append.mp hnd).1
  have hle : l.length ≤ p.pool.length + 1 :=
    Nat.le_succ_of_le (chainOk_length_le hndl hc)
  have hs := free_stack_aux_spec l p h fl (p.pool.length + 1) hc hf hnd hle
  have hq : chainOk (p.free_stack h).1 (p.free_stack h).1.free_nodes
      (l.reverse ++ fl) = true := hs.2.2.2.2
  have hqlen : (p.free_stack h).1.pool.length = p.pool.length := hs.2.1
  have hqcap : (p.free_stack h).1.cap = p.cap := hs.2.2.1
  have hqgrowths : (p.free_stack h).1.growths = p.growths := hs.2.2.2.1
  have hperm : (l.reverse ++ fl).Nodup :=
    (((List.reverse_perm l).append_right fl).nodup_iff).mpr hnd
  have hople : ops.length ≤ (l.reverse ++ fl).length := by
    rw [hlen]
    simp
  have hps := pushSeq_reuse ops (p.free_stack h).1 (l.reverse ++ fl) hq hperm hople
  refine ⟨?_, ?_, ?_, ?_⟩
  · rw [hps.1, hlen, ← List.length_reverse]
    exact List.take_left _ _
  · rw [hps.2.1, hqlen]
  · rw [hps.2.2.2, hqgrowths]
  · show (pushSeq (p.free_stack h).1 ops).1.cap = p.cap
    rw [hps.2.2.1, hqcap]

/-- C6: on a pool with no prior allocation, `reserve n` followed by up to `n`
pushes causes zero storage-growth events; and `reserve` changes neither the
node storage, the free list, nor the iteration of any existing stack — it
only grows the capacity, which never shrinks. -/
theorem reserve_then_push_no_growth (n : Nat) (ops : List (T × Nat))
    (q : stack_pool T) (m x : Nat) (hle : ops.length ≤ n) :
    (pushSeq ((initPool T).reserve n) ops).1.growths = 0 ∧
    (q.reserve m).pool = q.pool ∧
    (q.reserve m).free_nodes = q.free_nodes ∧
    q.capacity ≤ (q.reserve m).capacity ∧
    (q.reserve m).stackToList x = q.stackToList x := by
  refine ⟨?_, rfl, rfl, ?_, ?_⟩
  · have hng := pushSeq_no_growth ops ((initPool T).reserve n) (by
      show (initPool T).pool.length + ops.length ≤ max (initPool T).cap n
      simpa [initPool] using hle)
    rw [hng.1]
    rfl
  · show q.cap ≤ max q.cap m
    exact Nat.le_max_left _ _
  · exact iterList_congr_pool q (q.reserve m) rfl _ _

/-- C7: handles are 1-based indices into node storage and 0 is the reserved
sentinel never indexing a real node: the handle returned by push is nonzero,
addresses the node `{v, h}` just written, node access resolves handle `x` to
storage slot `x - 1`, and the growth branch returns the new storage size. -/
theorem handles_one_based (p : stack_pool T) (v : T) (h : Nat)
    (hf : p.free_nodes ≠ 0 → p.free_nodes - 1 < p.pool.length) :
    (p._push v h).2 ≠ 0 ∧
    (p._push v h).1.node? (p._push v h).2 = some ⟨v, h⟩ ∧
    (p._push v h).1.node? (p._push v h).2 =
      (p._push v h).1.pool[(p._push v h).2 - 1]? ∧
    (p.free_nodes = 0 → (p._push v h).2 = (p._push v h).1.pool.length) ∧
    (∀ q : stack_pool T, q.node? 0 = none) := by
  have hret0 := push_ret_ne_zero p v h
  refine ⟨hret0, node?_push_self v h hf, ?_, ?_, fun q => rfl⟩
  · simp [node?, hret0]
  · intro h0
    rw [_push_free v h h0]
    simp

/-- C8: two iterators over the same pool compare equal if and only if they
reference the same current handle; an iterator equals the end iterator
exactly when its current handle is the sentinel. -/
theorem iterator_eq_iff_same_handle (p : stack_pool T) (a b : Nat) :
    (_iterator.beq (_iterator.iterBegin p a) (_iterator.iterBegin p b) = true ↔
      a = b) ∧
    (_iterator.beq (_iterator.iterBegin p a) (_iterator.iterEnd p) = true ↔
      a = endH) := by
  constructor <;> simp [_iterator.beq, _iterator.iterBegin, _iterator.iterEnd]

/-- C9: push never returns the sentinel: `empty` of the handle returned by
`push(v, h)` is false, in both the free-list-reuse branch and the growth
branch. -/
theorem push_never_sentinel (p : stack_pool T) (v : T) (h : Nat) :
    (p._push v h).1.empty (p._push v h).2 = false := by
  have hne := push_ret_ne_zero p v h
  simpa [empty, endH] using hne

/-- C10: the free list is itself a LIFO stack: `pop` prepends the removed node
to the free-list head, a push with non-empty free list reuses exactly the most
recently freed slot, and after `free_stack` on a chain `n1 -> ... -> nk` the
next push reuses slot `nk`, the bottom (last) node of the freed stack. -/
theorem free_list_lifo (p : stack_pool T) (h : Nat) (l fl : List Nat)
    (v : T) (hd : Nat)
    (hc : chainOk p h l = true) (hf : chainOk p p.free_nodes fl = true)
    (hnd : (l ++ fl).Nodup) (hl : l ≠ []) :
    (∀ (q : stack_pool T) (x : Nat), x ≠ 0 → (q.pop x).1.free_nodes = x) ∧
    (∀ (q : stack_pool T) (w : T) (y : Nat), q.free_nodes ≠ 0 →
      (q._push w y).2 = q.free_nodes) ∧
    l.getLast? = some (((p.free_stack h).1._push v hd).2) := by
  refine ⟨fun q x hx => by rw [pop_spec x hx],
    fun q w y h0 => by rw [_push_reuse w y h0], ?_⟩
  have hndl : l.Nodup := (List.nodup_append.mp hnd).1
  have hle : l.length ≤ p.pool.length + 1 :=
    Nat.le_succ_of_le (chainOk_length_le hndl hc)
  have hs := free_stack_aux_spec l p h fl (p.pool.length + 1) hc hf hnd hle
  have hq : chainOk (p.free_stack h).1 (p.free_stack h).1.free_nodes
      (l.reverse ++ fl) = true := hs.2.2.2.2
  obtain ⟨z, zs, hrev⟩ : ∃ z zs, l.reverse = z :: zs := by
    cases hr : l.reverse with
    | nil => exact absurd (List.reverse_eq_nil_iff.mp hr) hl
    | cons z zs => exact ⟨z, zs, rfl⟩
  rw [hrev, List.cons_append, chainOk_cons_iff] at hq
  obtain ⟨hfz, hz0, _, _⟩ := hq
  have hpush : ((p.free_stack h).1._push v hd).2 = (p.free_stack h).1.free_nodes := by
    rw [_push_reuse v hd hz0]
  rw [hpush, hfz, ← List.head?_reverse, hrev]
  rfl

end stack_pool

/-! ### Concrete witnesses -/

namespace stack_pool

/-- A concrete pool whose free list holds exactly handle 1. -/
def poolFree1 : stack_pool Nat :=
  { pool := [⟨0, 0⟩], free_nodes := 1, cap := 1, growths := 1 }

/-- A concrete pool holding the stack chain 3 -> 2 -> 1 (values 3, 2, 1) with
an empty free list. -/
def poolStack3 : stack_pool Nat :=
  { pool := [⟨1, 0⟩, ⟨2, 1⟩, ⟨3, 2⟩], free_nodes := 0, cap := 3, growths := 0 }

/-- Witness for C1: pushing 10, 20, 30 onto an empty stack of an empty pool
and iterating yields 30, 20, 10. -/
theorem push_iterate_lifo_witness :
    chainOk (initPool Nat) (initPool Nat).free_nodes [] = true ∧
    ([] : List Nat).Nodup ∧
    (pushMany (initPool Nat) (initPool Nat).new_stack [10, 20, 30]).1.stackToList
      (pushMany (initPool Nat) (initPool Nat).new_stack [10, 20, 30]).2 =
      [10, 20, 30].reverse :=
  ⟨by decide, by decide,
    push_iterate_lifo [10, 20, 30] (initPool Nat) [] (by decide) (by decide)⟩

/-- Witness for C2, exercising the free-list-reuse branch: pushing 5 onto the
empty stack of `poolFree1` and popping restores the sentinel and removes 5. -/
theorem push_pop_inverse_witness :
    (poolFree1.free_nodes ≠ 0 → poolFree1.free_nodes - 1 < poolFree1.pool.length) ∧
    (((poolFree1._push 5 0).1.pop (poolFree1._push 5 0).2).2 = 0 ∧
     (poolFree1._push 5 0).1.value? (poolFree1._push 5 0).2 = some 5 ∧
     ((poolFree1._push 5 0).1.pop (poolFree1._push 5 0).2).1.free_nodes =
       (poolFree1._push 5 0).2 ∧
     ((poolFree1._push 5 0).1.pop (poolFree1._push 5 0).2).1.value?
       (poolFree1._push 5 0).2 = some 5) :=
  ⟨by decide, push_pop_inverse poolFree1 5 0 (by decide)⟩

/-- Witness for C4: freeing the length-3 stack of `poolStack3`. -/
theorem free_stack_empties_witness :
    chainOk poolStack3 3 [3, 2, 1] = true ∧
    ([3, 2, 1] : List Nat).Nodup ∧
    ((poolStack3.free_stack 3).2 = 0 ∧
     (poolStack3.free_stack 3).1.empty (poolStack3.free_stack 3).2 = true ∧
     (poolStack3.free_stack 3).1.capacity = poolStack3.capacity ∧
     (poolStack3.free_stack 3).1.pool.length = poolStack3.pool.length ∧
     poolStack3.free_stack 3 = popN poolStack3 3 ([3, 2, 1] : List Nat).length) :=
  ⟨by decide, by decide,
    free_stack_empties poolStack3 3 [3, 2, 1] (by decide) (by decide)⟩

/-- Witness for C5: freeing the length-3 stack of `poolStack3` and pushing
three new values reuses slots 1, 2, 3 with no growth. -/
theorem recycle_freed_slots_witness :
    chainOk poolStack3 3 [3, 2, 1] = true ∧
    chainOk poolStack3 poolStack3.free_nodes [] = true ∧
    (([3, 2, 1] : List Nat) ++ []).Nodup ∧
    ([(7, 0), (8, 0), (9, 0)] : List (Nat × Nat)).length =
      ([3, 2, 1] : List Nat).length ∧
    ((pushSeq (poolStack3.free_stack 3).1 [(7, 0), (8, 0), (9, 0)]).2 =
       ([3, 2, 1] : List Nat).reverse ∧
     (pushSeq (poolStack3.free_stack 3).1 [(7, 0), (8, 0), (9, 0)]).1.pool.length =
       poolStack3.pool.length ∧
     (pushSeq (poolStack3.free_stack 3).1 [(7, 0), (8, 0), (9, 0)]).1.growths =
       poolStack3.growths ∧
     (pushSeq (poolStack3.free_stack 3).1 [(7, 0), (8, 0), (9, 0)]).1.capacity =
       poolStack3.capacity) :=
  ⟨by decide, by decide, by decide, by decide,
    recycle_freed_slots poolStack3 3 [3, 2, 1] [] [(7, 0), (8, 0), (9, 0)]
      (by decide) (by decide) (by decide) (by decide)⟩

/-- Witness for C6: reserving 2 slots on a fresh pool and pushing twice causes
no growth event; reserve leaves the (empty) pool contents untouched. -/
theorem reserve_then_push_no_growth_witness :
    ([(4, 0), (5, 0)] : List (Nat × Nat)).length ≤ 2 ∧
    ((pushSeq ((initPool Nat).reserve 2) [(4, 0), (5, 0)]).1.growths = 0 ∧
     ((initPool Nat).reserve 1).pool = (initPool Nat).pool ∧
     ((initPool Nat).reserve 1).free_nodes = (initPool Nat).free_nodes ∧
     (initPool Nat).capacity ≤ ((initPool Nat).reserve 1).capacity ∧
     ((initPool Nat).reserve 1).stackToList 0 = (initPool Nat).stackToList 0) :=
  ⟨by decide,
    reserve_then_push_no_growth 2 [(4, 0), (5, 0)] (initPool Nat) 1 0 (by decide)⟩

/-- Witness for C7: pushing 9 onto the stack with head 3 of `poolStack3`
(growth branch) returns handle 4, the new storage size. -/
theorem handles_one_based_witness :
    (poolStack3.free_nodes ≠ 0 → poolStack3.free_nodes - 1 < poolStack3.pool.length) ∧
    ((poolStack3._push 9 3).2 ≠ 0 ∧
     (poolStack3._push 9 3).1.node? (poolStack3._push 9 3).2 = some ⟨9, 3⟩ ∧
     (poolStack3._push 9 3).1.node? (poolStack3._push 9 3).2 =
       (poolStack3._push 9 3).1.pool[(poolStack3._push 9 3).2 - 1]? ∧
     (poolStack3.free_nodes = 0 →
       (poolStack3._push 9 3).2 = (poolStack3._push 9 3).1.pool.length) ∧
     (∀ q : stack_pool Nat, q.node? 0 = none)) :=
  ⟨by decide, handles_one_based poolStack3 9 3 (by decide)⟩

/-- Witness for C10: after freeing the chain 3 -> 2 -> 1 of `poolStack3`, the
next push reuses slot 1, the bottom node of the freed stack. -/
theorem free_list_lifo_witness :
    chainOk poolStack3 3 [3, 2, 1] = true ∧
    chainOk poolStack3 poolStack3.free_nodes [] = true ∧
    (([3, 2, 1] : List Nat) ++ []).Nodup ∧
    ([3, 2, 1] : List Nat) ≠ [] ∧
    ((∀ (q : stack_pool Nat) (x : Nat), x ≠ 0 → (q.pop x).1.free_nodes = x) ∧
     (∀ (q : stack_pool Nat) (w : Nat) (y : Nat), q.free_nodes ≠ 0 →
       (q._push w y).2 = q.free_nodes) ∧
     ([3, 2, 1] : List Nat).getLast? =
       some (((poolStack3.free_stack 3).1._push 7 0).2)) :=
  ⟨by decide, by decide, by decide, by decide,
    free_list_lifo poolStack3 3 [3, 2, 1] [] 7 0
      (by decide) (by decide) (by decide) (by decide)⟩

end stack_pool
